import Mathlib

/-!
Shallow embedding of the `sat::lookahead` class from `sat_lookahead.h`
(lookahead SAT solver in the style of March / Knuth's sat11.w).

Modelling conventions:
* machine unsigned integers are `Nat`, with `% 2^32` written out where the
  source relies on wraparound (`m_bstamp_id`, `mix_diff`, `diff`);
* `float`/`double` values (`m_H`, `m_rating`, `m_delta_trigger`) are exact
  rationals, represented as explicit numerator/denominator pairs (`Q`) so
  that the kernel can evaluate them; note that `Q` division by zero yields 0
  where IEEE floats yield inf/NaN — every theorem below that touches a
  quotient either keeps the denominator nonzero or is precisely about the
  denominator being zero;
* `literal` is a pair (variable, sign) with `index() = 2*var + sign` and
  `~l` flipping the sign, matching `literal::index()` and `operator~`
  (which flips the low bit of `m_val`);
* unguarded `back()` / `pop_back()` on a possibly-empty `svector`, which the
  source guards only with debug assertions, are modelled in an error monad
  (`Err.crash`); `SASSERT`/`TRACE`/statistics are no-ops and are omitted;
* the two unbounded loops (`propagate`, the `while (!choose1(l))` loop of
  `choose`, and the outer `search` loop) take explicit fuel; running out of
  fuel is a distinguished error (`Err.pfuel` for `propagate`, `Err.fuel` for
  the `choose`/`search` loops) so that loop-iteration bounds can be stated;
* `m_watches`/`m_clauses` propagation: `init()` never installs any watch
  (the source reads "// TBD: add watch"), so every watch list stays empty and
  `propagate_clauses` only walks an empty list; it is modelled as the
  identity on the state;
* `order_by_implication_trees` builds only local data (`roots`, `nodes`,
  `parent`) and ends with "// TBD: extract ordering"; it neither modifies
  its argument `P` nor the solver state, so `pre_select` is modelled as
  `select_variables` alone;
* `s.m_rand` (the external random source) is modelled as a stream of
  naturals carried in the state, drawn modulo the bound.
-/

/-- Exact rational arithmetic on explicit fractions: the model of the
source's `float`/`double` values.  Fractions are not normalized, so
structural equality is finer than value equality; `Q.beq` compares values.
All constructed values keep a positive denominator. -/
structure Q where
  num : Int
  den : Nat
deriving DecidableEq, Repr

instance (n : Nat) : OfNat Q n := ⟨⟨n, 1⟩⟩

/-- Cancel the gcd of numerator and denominator (value-preserving; keeps
intermediate results small). -/
def Q.norm (x : Q) : Q :=
  let g := Nat.gcd x.num.natAbs x.den
  if g ≤ 1 then x else ⟨x.num / (g : Int), x.den / g⟩

/-- Addition of fractions. -/
def Q.add (x y : Q) : Q := Q.norm ⟨x.num * y.den + y.num * x.den, x.den * y.den⟩

/-- Subtraction of fractions. -/
def Q.sub (x y : Q) : Q := Q.norm ⟨x.num * y.den - y.num * x.den, x.den * y.den⟩

/-- Multiplication of fractions. -/
def Q.mul (x y : Q) : Q := Q.norm ⟨x.num * y.num, x.den * y.den⟩

/-- Division of fractions; division by zero yields 0 (see the header note:
the IEEE code produces inf/NaN there). -/
def Q.div (x y : Q) : Q :=
  if y.num < 0 then Q.norm ⟨-(x.num * y.den), x.den * y.num.natAbs⟩
  else if y.num = 0 then ⟨0, 1⟩
  else Q.norm ⟨x.num * y.den, x.den * y.num.natAbs⟩

instance : Add Q := ⟨Q.add⟩
instance : Sub Q := ⟨Q.sub⟩
instance : Mul Q := ⟨Q.mul⟩
instance : Div Q := ⟨Q.div⟩

/-- Value-level strict order (denominators are positive). -/
def Q.blt (x y : Q) : Bool := x.num * y.den < y.num * x.den

/-- Value-level equality test. -/
def Q.beq (x y : Q) : Bool := x.num * y.den == y.num * x.den

/-- `std::min(x, y)`: `y < x ? y : x`. -/
def Q.minQ (x y : Q) : Q := if Q.blt y x then y else x

/-- Embed a machine unsigned value into `Q`. -/
def Q.ofN (n : Nat) : Q := ⟨n, 1⟩

/-- Value-level equality of two `Q` arrays (the reading of "identical
float array" on the exact model). -/
def Q.eqvList (xs ys : List Q) : Bool :=
  xs.length == ys.length && (List.zip xs ys).all fun p => Q.beq p.1 p.2

/-- Truth values, mirroring `lbool` (`l_false`, `l_undef`, `l_true`). -/
inductive LB where
  | lfalse
  | lundef
  | ltrue
deriving DecidableEq, Repr

/-- A literal: a Boolean variable with a sign, as in `sat::literal`.
`sign = true` is the negative literal. -/
structure Lit where
  var : Nat
  sign : Bool
deriving DecidableEq, Repr

/-- `literal::index()`: dense index `2*var + sign`. -/
def Lit.idx (l : Lit) : Nat := 2 * l.var + (if l.sign then 1 else 0)

/-- `operator~` on literals: flip the sign (the source flips the low bit of
the packed index, which is the same operation on the (var, sign) view). -/
def Lit.neg (l : Lit) : Lit := ⟨l.var, !l.sign⟩

/-- Construct a literal from a variable and a sign, as `literal(v, sign)`. -/
def mkLit (v : Nat) (s : Bool) : Lit := ⟨v, s⟩

/-- Errors of the embedded computations: `crash` models an unguarded
out-of-bounds vector access (debug-assertion failure / UB in the source),
`fuel` models exhausting the iteration budget of the `choose`/`search`
loops, `pfuel` the budget of the inner `propagate` loop. -/
inductive Err where
  | crash
  | fuel
  | pfuel
deriving DecidableEq, Repr

deriving instance DecidableEq for Except

/-- A pre-selection candidate, mirroring `struct candidate`. -/
structure Candidate where
  var : Nat
  rating : Q
deriving DecidableEq, Repr

/-- The mutable state of one `lookahead` instance.  Fields mirror the data
members of `class lookahead`; `numVars` is `s.num_vars()` (fixed after
construction), `rands` models the external random source `s.m_rand`.
`m_watches`, `m_clauses` and the statistics are omitted (see the header
comment); the dfs/forest structures are not needed by any claim. -/
structure State where
  numVars : Nat
  deltaTrigger : Q
  trail : List Lit
  trailLim : List Nat
  units : List Lit
  unitsLim : List Nat
  binary : List (List Lit)
  binaryTrail : List Nat
  binaryTrailLim : List Nat
  qhead : Nat
  qheadLim : List Nat
  inconsistent : Bool
  bstamp : List Nat
  bstampId : Nat
  assignment : List LB
  freevars : List Nat
  H : List (List Q)
  rating : List Q
  candidates : List Candidate
  rands : List Nat
deriving DecidableEq, Repr

namespace Lookahead

/-- `config::m_alpha` (3.5). -/
def alpha : Q := ⟨7, 2⟩

/-- `config::m_max_score` (20.0). -/
def maxScore : Q := 20

/-- `config::m_max_hlevel` (50). -/
def maxHlevel : Nat := 50

/-- `config::m_dl_success` (0.8, set in `init`). -/
def dlSuccess : Q := ⟨4, 5⟩

/-- `2^32`, the modulus of the `unsigned` counters. -/
def U32 : Nat := 4294967296

/-- `value(l)`: read `m_assignment[l.index()]` (reads are always in bounds
in well-formed states; out-of-range defaults to `l_undef`). -/
def value (st : State) (l : Lit) : LB := st.assignment.getD l.idx LB.lundef

/-- `is_fixed(l)`. -/
def isFixed (st : State) (l : Lit) : Bool := value st l != LB.lundef

/-- `is_true(l)`. -/
def isTrue (st : State) (l : Lit) : Bool := value st l == LB.ltrue

/-- `set_conflict()`. -/
def setConflict (st : State) : State := { st with inconsistent := true }

/-- `assign(l)`: no-op when already true, conflict when already false;
otherwise the source writes `l.sign() ? l_false : l_true` into *both*
`m_assignment[l.index()]` and `m_assignment[(~l).index()]` and appends `l`
to `m_trail`. -/
def assignFn (st : State) (l : Lit) : State :=
  match value st l with
  | LB.ltrue => st
  | LB.lfalse => setConflict st
  | LB.lundef =>
    let v : LB := if l.sign then LB.lfalse else LB.ltrue
    { st with
      assignment := (st.assignment.set l.idx v).set (Lit.neg l).idx v
      trail := st.trail ++ [l] }

/-- `add_binary(l1, l2)`: record clause `l1 ∨ l2` as the two implications
`~l1 ⇒ l2` and `~l2 ⇒ l1`, pushing `(~l1).index()` on `m_binary_trail`. -/
def addBinary (st : State) (l1 l2 : Lit) : State :=
  let st1 := { st with
    binary := st.binary.set (Lit.neg l1).idx
      ((st.binary.getD (Lit.neg l1).idx []) ++ [l2]) }
  { st1 with
    binary := st1.binary.set (Lit.neg l2).idx
      ((st1.binary.getD (Lit.neg l2).idx []) ++ [l1])
    binaryTrail := st1.binaryTrail ++ [(Lit.neg l1).idx] }

/-- `del_binary(idx)`: pop the last literal `l` of `m_binary[idx]` and the
last entry of `m_binary[(~l).index()]`; `back()` on an empty vector is a
crash. -/
def delBinary (st : State) (idx : Nat) : Except Err State :=
  match (st.binary.getD idx []).getLast? with
  | none => .error .crash
  | some l =>
    let st1 := { st with binary := st.binary.set idx ((st.binary.getD idx []).dropLast) }
    match (st1.binary.getD (Lit.neg l).idx []).getLast? with
    | none => .error .crash
    | some _ => .ok { st1 with
        binary := st1.binary.set (Lit.neg l).idx ((st1.binary.getD (Lit.neg l).idx []).dropLast) }

/-- `inc_bstamp()`: `++m_bstamp_id` with 32-bit wraparound; on wrap the id
becomes 1 and the whole stamp array is cleared. -/
def incBstamp (st : State) : State :=
  let id := (st.bstampId + 1) % U32
  if id = 0 then
    { st with bstampId := 1, bstamp := List.replicate st.bstamp.length 0 }
  else
    { st with bstampId := id }

/-- `set_bstamp(l)`. -/
def setBstamp (st : State) (l : Lit) : State :=
  { st with bstamp := st.bstamp.set l.idx st.bstampId }

/-- `set_bstamps(l)`: fresh stamp id, stamp `l` and every literal of
`m_binary[l.index()]`. -/
def setBstamps (st : State) (l : Lit) : State :=
  let st1 := incBstamp st
  let st2 := setBstamp st1 l
  (st2.binary.getD l.idx []).foldl (fun a w => setBstamp a w) st2

/-- `is_stamped(l)`. -/
def isStamped (st : State) (l : Lit) : Bool :=
  st.bstamp.getD l.idx 0 == st.bstampId

/-- The loop body of `add_tc1(u, v)` over a fixed prefix of
`m_binary[v.index()]` (the source fixes `sz` before the loop; appends made
by `add_binary` land beyond `sz` and are never read). Returns `false`
together with the new state when a unit was learned. -/
def addTc1Go (u : Lit) : List Lit → State → Bool × State
  | [], st => (true, st)
  | w :: ws, st =>
    if isFixed st w then addTc1Go u ws st
    else if isStamped st (Lit.neg w) then (false, assignFn st u)
    else addTc1Go u ws (addBinary st u w)

/-- `add_tc1(u, v)`: one-step transitive closure of `u ∨ v` against the
implications of `v`; returns `false` when a unit literal was learned. -/
def addTc1 (st : State) (u v : Lit) : Bool × State :=
  addTc1Go u (st.binary.getD v.idx []) st

/-- `try_add_binary(u, v)`: the dynamic binary-clause learner. -/
def tryAddBinary (st : State) (u v : Lit) : State :=
  let st1 := setBstamps st (Lit.neg u)
  if isStamped st1 (Lit.neg v) then
    assignFn st1 u
  else if !(isStamped st1 v) then
    match addTc1 st1 u v with
    | (false, st2) => st2
    | (true, st2) =>
      let st3 := setBstamps st2 (Lit.neg v)
      if isStamped st3 (Lit.neg u) then
        assignFn st3 v
      else
        match addTc1 st3 v u with
        | (false, st4) => st4
        | (true, st4) => addBinary st4 u v
  else st1

/-- `propagate_binary(l)`: assert every literal of `m_binary[l.index()]`
in order, stopping as soon as the state is inconsistent (the loop condition
checks `!inconsistent()` before each step; the size is fixed upfront and
`assign` never touches `m_binary`). -/
def propagateBinaryGo : List Lit → State → State
  | [], st => st
  | w :: ws, st =>
    if st.inconsistent then st else propagateBinaryGo ws (assignFn st w)

/-- `propagate_binary(l)`. -/
def propagateBinary (st : State) (l : Lit) : State :=
  propagateBinaryGo (st.binary.getD l.idx []) st

/-- `propagate_clauses(l)`: `init()` installs no watch (the source reads
"// TBD: add watch"), so `m_watches[l.index()]` is empty in every reachable
state and the loop body never runs; the function only rewrites an empty
watch list in place.  Modelled as the identity. -/
def propagateClauses (st : State) (_l : Lit) : State := st

/-- `propagate()`: drain the queue `m_qhead` over `m_trail`, stopping on
inconsistency; `fuel` bounds the number of loop iterations (exhaustion is
the distinguished error `Err.pfuel`). -/
def propagateGo : Nat → State → Except Err State
  | 0, _ => .error .pfuel
  | fuel + 1, st =>
    if st.qhead < st.trail.length then
      if st.inconsistent then .ok st
      else
        let l := st.trail.getD st.qhead (mkLit 0 false)
        let st1 := propagateClauses (propagateBinary st l) l
        propagateGo fuel { st1 with qhead := st1.qhead + 1 }
    else .ok st

/-- Fuel with which `push` runs `propagate`: pending queue length plus the
assignment size plus one, which dominates the number of iterations (each
iteration advances `m_qhead` by one and every trail extension consumes an
unassigned slot). -/
def propFuel (st : State) : Nat :=
  (st.trail.length - st.qhead) + st.assignment.length + 1

/-- The first half of `push(lit)`: save the four limit marks and push
`lit` on the trail. -/
def pushLims (st : State) (lit : Lit) : State :=
  { st with
    binaryTrailLim := st.binaryTrailLim ++ [st.binaryTrail.length]
    unitsLim := st.unitsLim ++ [st.units.length]
    trailLim := st.trailLim ++ [st.trail.length]
    qheadLim := st.qheadLim ++ [st.qhead]
    trail := st.trail ++ [lit] }

/-- `push(lit)`: save the four limit marks, push `lit` on the trail,
assign it, propagate. -/
def pushF (st : State) (lit : Lit) : Except Err State :=
  let st2 := assignFn (pushLims st lit) lit
  propagateGo (propFuel st2) st2

/-- The removal loop of `pop()`: `del_binary(m_binary_trail[i])` for `i`
ascending from the saved mark to the end (the source iterates forwards and
never shrinks `m_binary_trail`). -/
def delRange (st : State) : List Nat → Except Err State
  | [] => .ok st
  | idx :: rest =>
    match delBinary st idx with
    | .error e => .error e
    | .ok st1 => delRange st1 rest

/-- The "add implied binary clauses" loop of `pop()`:
`add_binary(~m_trail.back(), m_units[i])` for each unit beyond the saved
mark; reads `m_trail.back()` (crash when the trail is empty) only when the
segment is nonempty. -/
def addImplied (st : State) : List Lit → Except Err State
  | [] => .ok st
  | u :: rest =>
    match st.trail.getLast? with
    | none => .error .crash
    | some lastLit => addImplied (addBinary st (Lit.neg lastLit) u) rest

/-- `pop()`: undo the binary additions recorded since the matching `push`,
turn the units found meanwhile into binary clauses, shrink `m_units`, shrink
the trail to `m_trail_lim.size()` (the source's own expression: the *number
of levels*, not the saved size — and `m_assignment` is never reset), pop the
limit stacks, and read `m_qhead_lim.back()` *after* popping it (the
source's order; on the last level this reads an empty vector). -/
def popF (st : State) : Except Err State :=
  match st.binaryTrailLim.getLast? with
  | none => .error .crash
  | some old_sz =>
    match delRange { st with binaryTrailLim := st.binaryTrailLim.dropLast }
      (st.binaryTrail.drop old_sz) with
    | .error e => .error e
    | .ok stA =>
      match stA.unitsLim.getLast? with
      | none => .error .crash
      | some new_unit_sz =>
        match addImplied stA (stA.units.drop new_unit_sz) with
        | .error e => .error e
        | .ok stB =>
          let stC := { stB with
            units := stB.units.take new_unit_sz
            unitsLim := stB.unitsLim.dropLast }
          if stC.trailLim.length ≤ stC.trail.length then
            let stD := { stC with
              trail := stC.trail.take stC.trailLim.length
              trailLim := stC.trailLim.dropLast }
            if stD.qheadLim.isEmpty then .error .crash
            else
              let stE := { stD with qheadLim := stD.qheadLim.dropLast }
              match stE.qheadLim.getLast? with
              | none => .error .crash
              | some q => .ok { stE with qhead := q, inconsistent := false }
          else .error .crash

/-- `diff()`: `m_units.size() - m_units_lim.back()` in 32-bit unsigned
arithmetic (crash when `m_units_lim` is empty). -/
def diffF (st : State) : Except Err Nat :=
  match st.unitsLim.getLast? with
  | none => .error .crash
  | some b => .ok ((st.units.length + U32 - b) % U32)

/-- `mix_diff(l, r) = l + r + (1 << 10) * l * r` in 32-bit unsigned
arithmetic. -/
def mixDiff (l r : Nat) : Nat := (l + r + 1024 * l * r) % U32

/-- `do_double()`: `!inconsistent() && diff() > m_delta_trigger`
(short-circuit: `diff()` is not evaluated when inconsistent). -/
def doDoubleF (st : State) : Except Err Bool :=
  if st.inconsistent then .ok false
  else
    match diffF st with
    | .error e => .error e
    | .ok d => .ok (Q.blt st.deltaTrigger (Q.ofN d))

/-- `update_delta_trigger()`; the final `if (m_delta_trigger >= s.num_vars())`
has an empty body ("// reset it.") and is omitted.  The subtraction
`(1 - m_dl_success) / m_dl_success` is exact here (1/4) where the `double`
code computes a value one ulp away. -/
def updateDeltaTrigger (st : State) : State :=
  if st.inconsistent then
    { st with deltaTrigger := st.deltaTrigger - (1 - dlSuccess) / dlSuccess }
  else
    { st with deltaTrigger := st.deltaTrigger + 1 }

/-- The loop of `double_look(P)`: probe each still-undefined candidate on
both polarities, asserting the opposite literal when a probe is
inconsistent; the loop condition re-checks `!inconsistent()` before every
iteration. -/
def doubleLookGo : List Lit → State → Except Err State
  | [], st => .ok st
  | lit :: rest, st =>
    if st.inconsistent then .ok st
    else if value st lit != LB.lundef then doubleLookGo rest st
    else
      match pushF st lit with
      | .error e => .error e
      | .ok st1 =>
        match popF st1 with
        | .error e => .error e
        | .ok st2 =>
          if st1.inconsistent then doubleLookGo rest (assignFn st2 (Lit.neg lit))
          else
            match pushF st2 (Lit.neg lit) with
            | .error e => .error e
            | .ok st3 =>
              match popF st3 with
              | .error e => .error e
              | .ok st4 =>
                if st3.inconsistent then doubleLookGo rest (assignFn st4 lit)
                else doubleLookGo rest st4

/-- `double_look(P)`. -/
def doubleLookF (P : List Lit) (st : State) : Except Err State :=
  match doubleLookGo P st with
  | .error e => .error e
  | .ok st1 => .ok (updateDeltaTrigger st1)

/-- `select_variables(P)`: the positive literal of every variable whose
positive literal is unassigned. -/
def selectVariables (st : State) : List Lit :=
  (List.range st.numVars).filterMap fun v =>
    if value st (mkLit v false) = LB.lundef then some (mkLit v false) else none

/-- `pre_select(P)`: `select_variables` followed by
`order_by_implication_trees`, which builds only local data ("// TBD:
extract ordering") and changes neither `P` nor the state. -/
def preSelect (st : State) : List Lit := selectVariables st

/-- One draw of `s.m_rand(k)`: head of the stream modulo `k`. -/
def randNext (st : State) (k : Nat) : Nat × State :=
  (st.rands.headD 0 % k, { st with rands := st.rands.tail })

/-- The candidate loop of `choose1`: `P` is the full candidate list (passed
whole to `double_look`), the first list argument is the remaining suffix;
`h`, `count` and `l` are the running best score, tie count and champion. -/
def choose1Go (P : List Lit) :
    List Lit → Nat → Nat → Option Lit → State → Except Err (Bool × Option Lit × State)
  | [], _, _, l, st => .ok (l.isSome, l, st)
  | lit :: rest, h, count, l, st =>
    match pushF st lit with
    | .error e => .error e
    | .ok st1 =>
      match doDoubleF st1 with
      | .error e => .error e
      | .ok dd1 =>
        match (if dd1 then doubleLookF P st1 else .ok st1) with
        | .error e => .error e
        | .ok st2 =>
          if st2.inconsistent then
            match popF st2 with
            | .error e => .error e
            | .ok st3 =>
              let st4 := assignFn st3 (Lit.neg lit)
              match doDoubleF st4 with
              | .error e => .error e
              | .ok dd2 =>
                match (if dd2 then doubleLookF P st4 else .ok st4) with
                | .error e => .error e
                | .ok st5 =>
                  if st5.inconsistent then .ok (true, l, st5)
                  else choose1Go P rest h count l st5
          else
            match diffF st2 with
            | .error e => .error e
            | .ok diff1 =>
              match popF st2 with
              | .error e => .error e
              | .ok st3 =>
                match pushF st3 (Lit.neg lit) with
                | .error e => .error e
                | .ok st4 =>
                  match doDoubleF st4 with
                  | .error e => .error e
                  | .ok dd2 =>
                    match (if dd2 then doubleLookF P st4 else .ok st4) with
                    | .error e => .error e
                    | .ok st5 =>
                      match diffF st5 with
                      | .error e => .error e
                      | .ok diff2 =>
                        match popF st5 with
                        | .error e => .error e
                        | .ok st6 =>
                          if st5.inconsistent then
                            choose1Go P rest h count l (assignFn st6 lit)
                          else
                            let mixd := mixDiff diff1 diff2
                            if mixd > h then
                              choose1Go P rest mixd 1
                                (some (if diff1 < diff2 then lit else Lit.neg lit)) st6
                            else if mixd = h then
                              let rs := randNext st6 count
                              if rs.1 = 0 then
                                choose1Go P rest mixd (count + 1)
                                  (some (if diff1 < diff2 then lit else Lit.neg lit)) rs.2
                              else choose1Go P rest h count l rs.2
                            else choose1Go P rest h count l st6

/-- `choose1(l)`: returns (loop-is-done, chosen literal or null, state). -/
def choose1F (st : State) : Except Err (Bool × Option Lit × State) :=
  let P := preSelect st
  if P = [] then .ok (true, none, st)
  else choose1Go P P 0 1 none st

/-- `choose()`: `while (!choose1(l)) {}`, with `fuel` bounding the number
of `choose1` calls (exhaustion is `Err.fuel`). -/
def chooseF : Nat → State → Except Err (Option Lit × State)
  | 0, _ => .error .fuel
  | fuel + 1, st =>
    match choose1F st with
    | .error e => .error e
    | .ok (true, l, st1) => .ok (l, st1)
    | .ok (false, _, st1) => chooseF fuel st1

/-- `backtrack(trail)`: `false` (here `none`) on an empty decision trail;
otherwise pop one level, assign the negation of the undone decision and
drop it from the decision trail. -/
def backtrackF (st : State) (trail : List Lit) :
    Except Err (Option (State × List Lit)) :=
  match trail.getLast? with
  | none => .ok none
  | some lit =>
    match popF st with
    | .error e => .error e
    | .ok st1 => .ok (some (assignFn st1 (Lit.neg lit), trail.dropLast))

/-- `search()`: the outer loop, with `cfuel` the iteration budget handed to
each `choose()` call and `fuel` bounding the number of outer iterations;
`s.checkpoint()` is an external cancellation hook modelled as a no-op. -/
def searchF (cfuel : Nat) : Nat → State → List Lit → Except Err LB
  | 0, _, _ => .error .fuel
  | fuel + 1, st, trail =>
    match chooseF cfuel st with
    | .error e => .error e
    | .ok (l, st1) =>
      if st1.inconsistent then
        match backtrackF st1 trail with
        | .error e => .error e
        | .ok none => .ok LB.lfalse
        | .ok (some (st2, trail2)) => searchF cfuel fuel st2 trail2
      else
        match l with
        | none => .ok LB.ltrue
        | some lit =>
          match pushF st1 lit with
          | .error e => .error e
          | .ok st2 => searchF cfuel fuel st2 (trail ++ [lit])

/-- `is_unit(l)`: "// TBD track variables that are units" — always false. -/
def isUnit (_st : State) (_l : Lit) : Bool := false

/-- `is_free(l) = !is_unit(l)`. -/
def isFree (st : State) (l : Lit) : Bool := !isUnit st l

/-- The sum of the first loop of `h_scores`: previous-level weight of both
polarities over the free variables. -/
def hSum (h : List Q) (freevars : List Nat) : Q :=
  freevars.foldl (fun a v => a + (h.getD (2 * v) 0 + h.getD (2 * v + 1) 0)) 0

/-- `l_score(l, h, factor, sqfactor, afactor)`: binary-implication
contribution over free successors, plus the never-implemented ternary term
`tsum` ("// TBD walk ternary clauses", always 0), clamped at `max_score`. -/
def lScore (st : State) (h : List Q) (_factor sqfactor afactor : Q) (l : Lit) : Q :=
  let sum := (st.binary.getD l.idx []).foldl
    (fun a w => if isFree st w then a + h.getD w.idx 0 else a) 0
  let tsum : Q := 0
  Q.minQ maxScore (⟨1, 10⟩ + afactor * sum + sqfactor * tsum)

/-- `h_scores(m_H[i], m_H[j])`: normalize the level-`i` weights over the
free variables and write the level-`j` scores and `m_rating`.  The `Q`
division `2 * |freevars| / sum` is division by zero when `sum = 0` (the
IEEE code produces inf there); the quotient is only consumed inside the
second loop. -/
def hScoresFn (st : State) (i j : Nat) : State :=
  let sum := hSum (st.H.getD i []) st.freevars
  let factor : Q := (2 * Q.ofN st.freevars.length) / sum
  let sqfactor := factor * factor
  let afactor := factor * alpha
  st.freevars.foldl (fun acc v =>
    let h := acc.H.getD i []
    let pos := lScore acc h factor sqfactor afactor (mkLit v false)
    let neg := lScore acc h factor sqfactor afactor (mkLit v true)
    { acc with
      H := acc.H.set j (((acc.H.getD j []).set (2 * v) pos).set (2 * v + 1) neg)
      rating := acc.rating.set v (pos * neg) }) st

/-- `ensure_H(level)`: append zero-filled per-literal arrays until
`m_H.size() > level` (closed form of the push-back loop). -/
def ensureH (st : State) (level : Nat) : State :=
  let fresh : List Q := List.replicate (2 * st.numVars) 0
  { st with H := st.H ++ List.replicate (level + 1 - st.H.length) fresh }

/-- `init_pre_selection(level)`: for `level ≤ 1` the bootstrap double sweep
(the inner `h_scores(m_H[i+1], m_H[(i+2) % 3])` pairs unrolled: (1,2) and
(2,0), twice); otherwise one sweep into level `min(level, max_hlevel)`. -/
def initPreSelection (st : State) (level : Nat) : State :=
  if level ≤ 1 then
    let st := ensureH st 2
    let st := hScoresFn st 0 1
    let st := hScoresFn st 1 2
    let st := hScoresFn st 2 0
    let st := hScoresFn st 1 2
    hScoresFn st 2 0
  else if level < maxHlevel then
    hScoresFn (ensureH st level) (level - 1) level
  else
    hScoresFn (ensureH st maxHlevel) (maxHlevel - 1) maxHlevel

/-- `init_candidates(level, newbies)`: reset `m_candidates`, push every
free variable with its rating (the `newbies` filter is a no-op stub in the
source), and return the rating sum. -/
def initCandidates (st : State) (_level : Nat) (_newbies : Bool) : State × Q :=
  let cs := st.freevars.map fun v => Candidate.mk v (st.rating.getD v 0)
  ({ st with candidates := cs },
   st.freevars.foldl (fun a v => a + st.rating.getD v 0) 0)

/-- One run of the pre-selection engine as exercised by `select`:
`init_pre_selection(level)` followed by the candidate construction
(`init_candidates(level, false)`, the first iteration of `select`'s
candidate loop). -/
def preRun (st : State) (level : Nat) : State × Q :=
  initCandidates (initPreSelection st level) level false

/-- `init_var(v)` applied `n` times by `init()`, together with the scalar
initialisation of `init()` (`m_delta_trigger = s.num_vars()/10` in unsigned
division, `m_inconsistent = false`, `m_qhead = 0`, `m_bstamp_id = 0`);
the copy-in of the external solver's clauses and units is not performed
(witness states add binaries and units explicitly). -/
def freshState (n : Nat) : State where
  numVars := n
  deltaTrigger := Q.ofN (n / 10)
  trail := []
  trailLim := []
  units := []
  unitsLim := []
  binary := List.replicate (2 * n) []
  binaryTrail := []
  binaryTrailLim := []
  qhead := 0
  qheadLim := []
  inconsistent := false
  bstamp := List.replicate (2 * n) 0
  bstampId := 0
  assignment := List.replicate (2 * n) LB.lundef
  freevars := []
  H := []
  rating := List.replicate n 0
  candidates := []
  rands := []

/-- The number of free variables as `select_variables` counts them: those
whose positive literal is unassigned. -/
def numFree (st : State) : Nat :=
  (List.range st.numVars).countP fun v => value st (mkLit v false) == LB.lundef

/-- Well-formedness needed by the counting arguments: the assignment array
has one slot per literal. -/
def wfA (st : State) : Bool := st.assignment.length == 2 * st.numVars

/-- Assignment-respecting simulation between two states: same variable
count, same assignment size, and no assigned slot ever becomes undefined
again (nothing in the engine writes `l_undef`, `pop` included). -/
def Step (st st' : State) : Prop :=
  st'.numVars = st.numVars ∧
  st'.assignment.length = st.assignment.length ∧
  ∀ i : Nat, st.assignment.getD i LB.lundef ≠ LB.lundef →
    st'.assignment.getD i LB.lundef ≠ LB.lundef

/-- State over three variables holding the clauses `x0 ∨ x2` and
`¬x1 ∨ x2`: the setting in which `try_add_binary(x0, x1)` re-adds the
already-present clause `x0 ∨ x2` through `add_tc1`. -/
def stCex6 : State :=
  addBinary (addBinary (freshState 3) (mkLit 0 false) (mkLit 2 false))
    (Lit.neg (mkLit 1 false)) (mkLit 2 false)

/-- State over two variables with the single binary clause `x0 ∨ x1`, both
variables free, and the three bootstrap `H` arrays allocated with `H[0]`
holding the uniform weight 1: input of the pre-selection rerun scenario. -/
def stCex9 : State :=
  { addBinary (freshState 2) (mkLit 0 false) (mkLit 1 false) with
    freevars := [0, 1]
    H := [[1, 1, 1, 1], [0, 0, 0, 0], [0, 0, 0, 0]] }

/-- A one-variable state whose single variable is registered as free:
the "at least one free variable" scenario of the first `h_scores` sweep. -/
def stCex8 : State := { freshState 1 with freevars := [0] }

/-- Two-variable state holding the clause `x0 ∨ ¬x1`: the implication
`¬x0 ⇒ ¬x1` is recorded, the setting of the unit-detection branch of
`try_add_binary(x0, x1)`. -/
def stW5 : State :=
  addBinary (freshState 2) (mkLit 0 false) (Lit.neg (mkLit 1 false))

/-- Two-variable state holding the clause `x0 ∨ x1`: the direct clause is
already present when `try_add_binary(x0, x1)` is called again. -/
def stW6 : State := addBinary (freshState 2) (mkLit 0 false) (mkLit 1 false)

end Lookahead

namespace Lookahead

/-! ### Claim theorems and supporting lemmas -/

/-- C3. The spec's pairing invariant `value(l) = l_true ⇔ value(~l) = l_false`
is broken by `assign` itself: on a fresh one-variable engine, `assign(x0)`
writes `l_true` into *both* slots (`m_assignment[l.index()]` and
`m_assignment[(~l).index()]` receive the same `l.sign() ? l_false : l_true`
value), so `value(x0) = l_true` while `value(¬x0) = l_true` as well — the
very state the solver's own `SASSERT(value(~l) == l_false)` in
`propagate_clauses` rules out. -/
theorem assign_breaks_value_negation_pairing :
    value (assignFn (freshState 1) (mkLit 0 false)) (mkLit 0 false) = LB.ltrue ∧
    value (assignFn (freshState 1) (mkLit 0 false)) (Lit.neg (mkLit 0 false)) = LB.ltrue := by
  decide

/-- C4. `assign(l)` on an undefined *negative* literal does not make
`value(l)` equal to `l_true`: assigning `¬x0` on a fresh engine stores
`l_false` in `¬x0`'s own slot, and a second `assign(¬x0)` therefore flags a
conflict instead of being the no-op the claim requires. -/
theorem assign_negative_literal_value :
    value (assignFn (freshState 1) (mkLit 0 true)) (mkLit 0 true) = LB.lfalse ∧
    (assignFn (assignFn (freshState 1) (mkLit 0 true)) (mkLit 0 true)).inconsistent = true := by
  decide

/-- C2. The push/pop round trip fails on a fresh one-variable engine: the
single balanced `pop` crashes reading `m_qhead_lim.back()` on an emptied
stack, and the `push` had changed the assignment array, which no line of
`pop` ever restores (its `m_trail.shrink(m_trail_lim.size())` only shrinks
the trail and `m_assignment` is never written). -/
theorem push_pop_roundtrip_fails :
    (pushF (freshState 1) (mkLit 0 false)).bind popF = .error Err.crash ∧
    (pushF (freshState 1) (mkLit 0 false)).map State.assignment ≠
      .ok (freshState 1).assignment := by
  decide

/-- C10. `pop()` pops `m_qhead_lim` *before* reading `back()`: the balanced
pop of a single root-level push reads an empty stack (out of bounds), and
with two nested pushes (saved queue heads 0 and 2) the inner pop restores
`m_qhead` to 0 — the value saved by the *outer* push — instead of its
matching saved value 2. -/
theorem pop_qhead_restore_bug :
    (pushF (freshState 2) (mkLit 0 false)).bind popF = .error Err.crash ∧
    ((pushF (freshState 2) (mkLit 0 false)).bind fun s =>
      pushF s (mkLit 1 false)).map State.qheadLim = .ok [0, 2] ∧
    (((pushF (freshState 2) (mkLit 0 false)).bind fun s =>
      pushF s (mkLit 1 false)).bind popF).map State.qhead = .ok 0 := by
  decide

/-- C8. The very first `h_scores` sweep reached through
`init_pre_selection` runs on the freshly allocated `H` arrays, which
`ensure_H` fills with zeros; with one free variable the summed
previous-level weight is 0, so `factor = 2·|freevars| / Σh` divides by
zero rather than being the well-defined value the claim asserts. -/
theorem first_sweep_sum_zero :
    hSum ((ensureH stCex8 2).H.getD 0 []) (ensureH stCex8 2).freevars = 0 ∧
    (ensureH stCex8 2).freevars ≠ [] := by
  decide

/-- C6 counterexample. Starting from clauses `x0 ∨ x2` and `¬x1 ∨ x2`,
the call `try_add_binary(x0, x1)` reaches `add_tc1(x0, x1)`, which re-adds
the already-present derived clause `x0 ∨ x2` (it tests `is_stamped(~w)`
only, never whether `w` itself is stamped), leaving `x2` twice in
`m_binary[(~x0).index()]`. -/
theorem binary_duplicate_entry_cex :
    ¬ ((tryAddBinary stCex6 (mkLit 0 false) (mkLit 1 false)).binary.getD
        (Lit.neg (mkLit 0 false)).idx []).Nodup := by
  decide

/-! Lemmas about the stamping machinery. -/

theorem getD_set_self {α : Type} (xs : List α) (i : Nat) (a d : α)
    (h : i < xs.length) : (xs.set i a).getD i d = a := by
  simp [List.getD, List.getElem?_set_self, h]

theorem getD_set_ne {α : Type} (xs : List α) {i j : Nat} (a d : α)
    (h : i ≠ j) : (xs.set i a).getD j d = xs.getD j d := by
  simp [List.getD, List.getElem?_set_ne, h]

theorem setBstamp_binary (st : State) (l : Lit) :
    (setBstamp st l).binary = st.binary := rfl

theorem setBstamp_bstampId (st : State) (l : Lit) :
    (setBstamp st l).bstampId = st.bstampId := rfl

theorem setBstamp_bstamp_length (st : State) (l : Lit) :
    (setBstamp st l).bstamp.length = st.bstamp.length := by
  simp [setBstamp]

theorem incBstamp_binary (st : State) : (incBstamp st).binary = st.binary := by
  unfold incBstamp
  dsimp only
  split <;> rfl

theorem incBstamp_bstamp_length (st : State) :
    (incBstamp st).bstamp.length = st.bstamp.length := by
  unfold incBstamp
  dsimp only
  split <;> simp

theorem foldl_setBstamp_binary (L : List Lit) (st : State) :
    (L.foldl (fun a w => setBstamp a w) st).binary = st.binary := by
  induction L generalizing st with
  | nil => rfl
  | cons y ys ih => simpa [setBstamp_binary] using ih (setBstamp st y)

theorem setBstamps_binary (st : State) (l : Lit) :
    (setBstamps st l).binary = st.binary := by
  show (List.foldl (fun a w => setBstamp a w) (setBstamp (incBstamp st) l)
    ((setBstamp (incBstamp st) l).binary.getD l.idx [])).binary = st.binary
  rw [foldl_setBstamp_binary, setBstamp_binary, incBstamp_binary]

theorem assignFn_binary (st : State) (l : Lit) :
    (assignFn st l).binary = st.binary := by
  unfold assignFn
  split <;> rfl

theorem isStamped_setBstamp_mono (st : State) (y x : Lit)
    (h : isStamped st x = true) : isStamped (setBstamp st y) x = true := by
  unfold isStamped at h ⊢
  unfold setBstamp
  dsimp only
  by_cases hxy : y.idx = x.idx
  · by_cases hlt : y.idx < st.bstamp.length
    · rw [← hxy, getD_set_self _ _ _ _ hlt]
      simp
    · rw [List.set_eq_of_length_le (le_of_not_lt hlt)]
      exact h
  · rw [getD_set_ne _ _ _ hxy]
    exact h

theorem foldl_setBstamp_mono (L : List Lit) (st : State) (x : Lit)
    (h : isStamped st x = true) :
    isStamped (L.foldl (fun a w => setBstamp a w) st) x = true := by
  induction L generalizing st with
  | nil => exact h
  | cons y ys ih => exact ih (setBstamp st y) (isStamped_setBstamp_mono st y x h)

theorem foldl_setBstamp_of_mem (L : List Lit) (st : State) (x : Lit)
    (hmem : x ∈ L) (hlen : x.idx < st.bstamp.length) :
    isStamped (L.foldl (fun a w => setBstamp a w) st) x = true := by
  induction L generalizing st with
  | nil => cases hmem
  | cons y ys ih =>
    rcases List.mem_cons.mp hmem with hx | hx
    · subst hx
      refine foldl_setBstamp_mono ys (setBstamp st x) x ?_
      unfold isStamped setBstamp
      dsimp only
      rw [getD_set_self _ _ _ _ hlen]
      simp
    · exact ih (setBstamp st y) hx (by rw [setBstamp_bstamp_length]; exact hlen)

theorem setBstamps_stamped_of_mem (st : State) (l x : Lit)
    (hmem : x ∈ st.binary.getD l.idx []) (hlen : x.idx < st.bstamp.length) :
    isStamped (setBstamps st l) x = true := by
  have hbin : (setBstamp (incBstamp st) l).binary = st.binary := by
    rw [setBstamp_binary, incBstamp_binary]
  have hlen2 : x.idx < (setBstamp (incBstamp st) l).bstamp.length := by
    rw [setBstamp_bstamp_length, incBstamp_bstamp_length]
    exact hlen
  show isStamped (List.foldl (fun a w => setBstamp a w) (setBstamp (incBstamp st) l)
    ((setBstamp (incBstamp st) l).binary.getD l.idx [])) x = true
  rw [hbin]
  exact foldl_setBstamp_of_mem _ _ _ hmem hlen2

theorem neg_idx_lt (v : Lit) (n : Nat) (hv : v.var < n) : (Lit.neg v).idx < 2 * n := by
  unfold Lit.neg Lit.idx
  cases v.sign <;> simp <;> omega

theorem idx_lt (v : Lit) (n : Nat) (hv : v.var < n) : v.idx < 2 * n := by
  unfold Lit.idx
  cases v.sign <;> simp <;> omega

/-- C5. When `~v` is already recorded among the direct implications of
`~u` (that is, the clause `u ∨ ~v` is in the binary table), the call
`try_add_binary(u, v)` takes the first branch: it stamps the implications
of `~u`, observes `is_stamped(~v)`, assigns `u` as a unit, and adds no
binary clause — the resulting state is exactly `assign(u)` applied after
`set_bstamps(~u)`, with the binary table untouched. -/
theorem try_add_binary_unit_detection (st : State) (u v : Lit)
    (hlen : st.bstamp.length = 2 * st.numVars)
    (hv : v.var < st.numVars)
    (hmem : Lit.neg v ∈ st.binary.getD (Lit.neg u).idx []) :
    tryAddBinary st u v = assignFn (setBstamps st (Lit.neg u)) u ∧
    (tryAddBinary st u v).binary = st.binary := by
  have hidx : (Lit.neg v).idx < st.bstamp.length := by
    rw [hlen]; exact neg_idx_lt v st.numVars hv
  have hst : isStamped (setBstamps st (Lit.neg u)) (Lit.neg v) = true :=
    setBstamps_stamped_of_mem st (Lit.neg u) (Lit.neg v) hmem hidx
  have heq : tryAddBinary st u v = assignFn (setBstamps st (Lit.neg u)) u := by
    unfold tryAddBinary
    simp only [hst]
    simp
  refine ⟨heq, ?_⟩
  rw [heq, assignFn_binary, setBstamps_binary]

/-- C5 witness: on the two-variable state holding `x0 ∨ ¬x1`, the call
`try_add_binary(x0, x1)` assigns `x0` and leaves the binary table as it
was. -/
theorem try_add_binary_unit_detection_witness :
    (stW5.bstamp.length = 2 * stW5.numVars ∧ (mkLit 1 false).var < stW5.numVars ∧
      Lit.neg (mkLit 1 false) ∈ stW5.binary.getD (Lit.neg (mkLit 0 false)).idx []) ∧
    tryAddBinary stW5 (mkLit 0 false) (mkLit 1 false) =
      assignFn (setBstamps stW5 (Lit.neg (mkLit 0 false))) (mkLit 0 false) ∧
    (tryAddBinary stW5 (mkLit 0 false) (mkLit 1 false)).binary = stW5.binary :=
  ⟨⟨by decide, by decide, by decide⟩,
   try_add_binary_unit_detection stW5 (mkLit 0 false) (mkLit 1 false)
     (by decide) (by decide) (by decide)⟩

/-- C6 amended. `try_add_binary(u, v)` never stores a second copy of the
clause `u ∨ v` itself: when `v` is already among the implications of `~u`,
either the `is_stamped(~v)` branch fires (assigning `u`, no table change)
or the `!is_stamped(v)` guard fails and nothing at all happens.  (The
duplicates exhibited by the counterexample arise only from the *derived*
clauses added by `add_tc1`.) -/
theorem try_add_binary_no_duplicate_direct (st : State) (u v : Lit)
    (hlen : st.bstamp.length = 2 * st.numVars)
    (hv : v.var < st.numVars)
    (hmem : v ∈ st.binary.getD (Lit.neg u).idx []) :
    (tryAddBinary st u v).binary = st.binary := by
  have hidx : v.idx < st.bstamp.length := by
    rw [hlen]; exact idx_lt v st.numVars hv
  have hstv : isStamped (setBstamps st (Lit.neg u)) v = true :=
    setBstamps_stamped_of_mem st (Lit.neg u) v hmem hidx
  unfold tryAddBinary
  by_cases hsnv : isStamped (setBstamps st (Lit.neg u)) (Lit.neg v) = true
  · simp only [hsnv]
    simp [assignFn_binary, setBstamps_binary]
  · have hsnv' : isStamped (setBstamps st (Lit.neg u)) (Lit.neg v) = false :=
      Bool.eq_false_iff.mpr hsnv
    simp only [hsnv', hstv]
    simp [setBstamps_binary]

/-- C6 amended witness: re-adding the already-present clause `x0 ∨ x1`
leaves the binary table unchanged. -/
theorem try_add_binary_no_duplicate_direct_witness :
    (stW6.bstamp.length = 2 * stW6.numVars ∧ (mkLit 1 false).var < stW6.numVars ∧
      mkLit 1 false ∈ stW6.binary.getD (Lit.neg (mkLit 0 false)).idx []) ∧
    (tryAddBinary stW6 (mkLit 0 false) (mkLit 1 false)).binary = stW6.binary :=
  ⟨⟨by decide, by decide, by decide⟩,
   try_add_binary_no_duplicate_direct stW6 (mkLit 0 false) (mkLit 1 false)
     (by decide) (by decide) (by decide)⟩

/-! Pre-selection rerun (C9). -/

/-- C9 counterexample. On `stCex9` (two free variables, one binary clause,
bootstrap `H` arrays with uniform `H[0]`), one pre-selection run changes
none of the assignment, the free-variable set or the binary table — yet
running the engine a second time yields a *different* rating array
(1367/7200 per variable the first time, 335413/5828300 the second),
because the bootstrap sweeps of `init_pre_selection` write `h_scores`
output back into `H[0]` (the `(i + 2) % 3` target), which the second run
then reads as its input level. -/
theorem pre_selection_rerun_differs_cex :
    (preRun stCex9 0).1.assignment = stCex9.assignment ∧
    (preRun stCex9 0).1.freevars = stCex9.freevars ∧
    (preRun stCex9 0).1.binary = stCex9.binary ∧
    Q.eqvList ((preRun (preRun stCex9 0).1 0).1.rating)
      ((preRun stCex9 0).1.rating) = false := by
  refine ⟨by decide, by decide, by decide, ?_⟩
  set_option maxRecDepth 100000 in decide

theorem hScoresFn_freevars_nil (st : State) (i j : Nat)
    (h : st.freevars = []) : hScoresFn st i j = st := by
  unfold hScoresFn
  rw [h]
  rfl

theorem ensureH_freevars (st : State) (level : Nat) :
    (ensureH st level).freevars = st.freevars := rfl

theorem ensureH_rating (st : State) (level : Nat) :
    (ensureH st level).rating = st.rating := rfl

theorem ensureH_candidates (st : State) (level : Nat) :
    (ensureH st level).candidates = st.candidates := rfl

theorem initPreSelection_nil (st : State) (level : Nat)
    (h : st.freevars = []) :
    (initPreSelection st level).rating = st.rating ∧
    (initPreSelection st level).candidates = st.candidates ∧
    (initPreSelection st level).freevars = [] := by
  have hfv2 : ∀ lv, (ensureH st lv).freevars = [] := by
    intro lv
    rw [ensureH_freevars]
    exact h
  unfold initPreSelection
  split
  · have eid : ∀ i j, hScoresFn (ensureH st 2) i j = ensureH st 2 := fun i j =>
      hScoresFn_freevars_nil _ i j (hfv2 2)
    simp only [eid]
    exact ⟨ensureH_rating st 2, ensureH_candidates st 2, hfv2 2⟩
  · split
    · simp only [hScoresFn_freevars_nil _ _ _ (hfv2 level)]
      exact ⟨ensureH_rating st level, ensureH_candidates st level, hfv2 level⟩
    · simp only [hScoresFn_freevars_nil _ _ _ (hfv2 maxHlevel)]
      exact ⟨ensureH_rating st maxHlevel, ensureH_candidates st maxHlevel, hfv2 maxHlevel⟩

theorem preRun_nil (st : State) (level : Nat) (h : st.freevars = []) :
    (preRun st level).1.rating = st.rating ∧
    (preRun st level).1.candidates = [] ∧
    (preRun st level).1.freevars = [] := by
  obtain ⟨hr, hc, hf⟩ := initPreSelection_nil st level h
  unfold preRun initCandidates
  dsimp only
  refine ⟨hr, ?_, hf⟩
  rw [hf]
  rfl

/-- C9 amended. The rerun identity does hold in every state whose
free-variable set is empty — which covers every state the code can
actually reach, since no statement of the file ever inserts into
`m_freevars`: with no free variables the sweeps write nothing, so both
runs return the incoming rating array and the empty candidate list. -/
theorem pre_selection_rerun_identical_no_freevars (st : State) (level : Nat)
    (h : st.freevars = []) :
    (preRun st level).1.rating = (preRun (preRun st level).1 level).1.rating ∧
    (preRun st level).1.candidates = (preRun (preRun st level).1 level).1.candidates ∧
    (preRun st level).1.rating = st.rating ∧
    (preRun st level).1.candidates = [] := by
  obtain ⟨hr1, hc1, hf1⟩ := preRun_nil st level h
  obtain ⟨hr2, hc2, hf2⟩ := preRun_nil (preRun st level).1 level hf1
  exact ⟨by rw [hr2], by rw [hc1, hc2], hr1, hc1⟩

/-- C9 amended witness: on a fresh one-variable engine two successive
pre-selection runs agree. -/
theorem pre_selection_rerun_identical_no_freevars_witness :
    (freshState 1).freevars = [] ∧
    (preRun (freshState 1) 0).1.rating =
      (preRun (preRun (freshState 1) 0).1 0).1.rating ∧
    (preRun (freshState 1) 0).1.candidates =
      (preRun (preRun (freshState 1) 0).1 0).1.candidates :=
  ⟨rfl,
   (pre_selection_rerun_identical_no_freevars (freshState 1) 0 rfl).1,
   (pre_selection_rerun_identical_no_freevars (freshState 1) 0 rfl).2.1⟩

/-! The search loop (C1). -/

/-- C1. One iteration of `search()`, given the outcome of `choose()`:
when inconsistency is flagged and the decision trail is empty the loop
returns `l_false`; when inconsistency is flagged and the trail ends in the
decision `lit`, the iteration pops one level, assigns `~lit`, drops `lit`
from the decision trail and continues; with no inconsistency a null choose
result returns `l_true`, and a literal is pushed and recorded; finally,
`l_false` can emerge from an iteration only through the inconsistency
branch or through the recursion after a push — never otherwise. -/
theorem search_loop_dispatch (cfuel fuel : Nat) (st : State) (trail : List Lit)
    (l : Option Lit) (st1 : State)
    (hc : chooseF cfuel st = .ok (l, st1)) :
    (st1.inconsistent = true → trail = [] →
      searchF cfuel (fuel + 1) st trail = .ok LB.lfalse)
    ∧ (st1.inconsistent = true → ∀ tr lit, trail = tr ++ [lit] →
      searchF cfuel (fuel + 1) st trail =
        (popF st1).bind fun st2 => searchF cfuel fuel (assignFn st2 (Lit.neg lit)) tr)
    ∧ (st1.inconsistent = false → l = none →
      searchF cfuel (fuel + 1) st trail = .ok LB.ltrue)
    ∧ (st1.inconsistent = false → ∀ lit, l = some lit →
      searchF cfuel (fuel + 1) st trail =
        (pushF st1 lit).bind fun st2 => searchF cfuel fuel st2 (trail ++ [lit]))
    ∧ (searchF cfuel (fuel + 1) st trail = .ok LB.lfalse →
        (st1.inconsistent = true ∧ trail = []) ∨
        (st1.inconsistent = true ∧ ∃ lit st2, trail.getLast? = some lit ∧
          popF st1 = .ok st2 ∧
          searchF cfuel fuel (assignFn st2 (Lit.neg lit)) trail.dropLast = .ok LB.lfalse) ∨
        (st1.inconsistent = false ∧ ∃ lit st2, l = some lit ∧
          pushF st1 lit = .ok st2 ∧
          searchF cfuel fuel st2 (trail ++ [lit]) = .ok LB.lfalse)) := by
  refine ⟨?_, ?_, ?_, ?_, ?_⟩
  · intro hi he
    subst he
    simp [searchF, hc, hi, backtrackF]
  · intro hi tr lit he
    subst he
    cases hp : popF st1 with
    | error e => simp [searchF, hc, hi, backtrackF, List.getLast?_concat, hp, Except.bind]
    | ok st2 => simp [searchF, hc, hi, backtrackF, List.getLast?_concat, hp, Except.bind]
  · intro hi hl
    subst hl
    simp [searchF, hc, hi]
  · intro hi lit hl
    subst hl
    cases hp : pushF st1 lit with
    | error e => simp [searchF, hc, hi, hp, Except.bind]
    | ok st2 => simp [searchF, hc, hi, hp, Except.bind]
  · intro hres
    by_cases hi : st1.inconsistent = true
    · cases htr : trail.getLast? with
      | none =>
        exact Or.inl ⟨hi, List.getLast?_eq_none_iff.mp htr⟩
      | some lit =>
        refine Or.inr (Or.inl ⟨hi, lit, ?_⟩)
        cases hp : popF st1 with
        | error e =>
          rw [searchF] at hres
          simp [hc, hi, backtrackF, htr, hp] at hres
        | ok st2 =>
          refine ⟨st2, rfl, rfl, ?_⟩
          rw [searchF] at hres
          simpa [hc, hi, backtrackF, htr, hp] using hres
    · have hi' : st1.inconsistent = false := Bool.eq_false_iff.mpr hi
      cases hl : l with
      | none =>
        rw [searchF] at hres
        simp [hc, hi', hl] at hres
      | some lit =>
        refine Or.inr (Or.inr ⟨hi', lit, ?_⟩)
        cases hp : pushF st1 lit with
        | error e =>
          rw [searchF] at hres
          simp [hc, hi', hl, hp] at hres
        | ok st2 =>
          refine ⟨st2, rfl, ?_⟩
          rw [searchF] at hres
          simpa [hc, hi', hl, hp] using hres

/-- C1 witness: with no variables `choose()` returns the null literal on a
consistent state and `search()` returns `l_true`. -/
theorem search_loop_dispatch_witness :
    chooseF 1 (freshState 0) = .ok (none, freshState 0) ∧
    searchF 1 1 (freshState 0) [] = .ok LB.ltrue :=
  ⟨by decide,
   (search_loop_dispatch 1 0 (freshState 0) [] none (freshState 0)
     (by decide)).2.2.1 (by decide) rfl⟩

/-! The `choose` loop (C7): nothing in the engine ever writes `l_undef`
back into the assignment array (`pop` included), so assigned variables stay
assigned across probes; each candidate processed by `choose1` is pushed and
hence assigned, so a `false` return of `choose1` strictly shrinks the free
set and the `while (!choose1(l))` loop needs at most `numFree + 1`
rounds. -/

theorem step_refl (st : State) : Step st st := ⟨rfl, rfl, fun _ h => h⟩

theorem step_trans {a b c : State} (h1 : Step a b) (h2 : Step b c) : Step a c :=
  ⟨h2.1.trans h1.1, h2.2.1.trans h1.2.1, fun i hi => h2.2.2 i (h1.2.2 i hi)⟩

theorem step_of_assignment_eq {a b : State} (hn : b.numVars = a.numVars)
    (ha : b.assignment = a.assignment) : Step a b :=
  ⟨hn, by rw [ha], fun i hi => by rw [ha]; exact hi⟩

theorem getD_set_or {α : Type} (xs : List α) (i j : Nat) (a d : α) :
    (xs.set i a).getD j d = a ∨ (xs.set i a).getD j d = xs.getD j d := by
  by_cases hij : i = j
  · subst hij
    by_cases hlt : i < xs.length
    · exact Or.inl (getD_set_self xs i a d hlt)
    · rw [List.set_eq_of_length_le (le_of_not_lt hlt)]
      exact Or.inr rfl
  · exact Or.inr (getD_set_ne xs a d hij)

theorem step_assignFn (st : State) (l : Lit) : Step st (assignFn st l) := by
  unfold assignFn
  split
  · exact step_refl st
  · exact step_of_assignment_eq rfl rfl
  · refine ⟨rfl, by simp, ?_⟩
    intro i hi
    dsimp only
    rcases getD_set_or (st.assignment.set l.idx (if l.sign then LB.lfalse else LB.ltrue))
      (Lit.neg l).idx i (if l.sign then LB.lfalse else LB.ltrue) LB.lundef with h1 | h1
    · rw [h1]
      cases l.sign <;> simp
    · rw [h1]
      rcases getD_set_or st.assignment l.idx i
        (if l.sign then LB.lfalse else LB.ltrue) LB.lundef with h2 | h2
      · rw [h2]
        cases l.sign <;> simp
      · rw [h2]
        exact hi

theorem step_propagateBinaryGo (L : List Lit) (st : State) :
    Step st (propagateBinaryGo L st) := by
  induction L generalizing st with
  | nil => exact step_refl st
  | cons w ws ih =>
    rw [propagateBinaryGo]
    split
    · exact step_refl st
    · exact step_trans (step_assignFn st w) (ih (assignFn st w))

theorem step_propagateGo (fuel : Nat) (st st' : State)
    (h : propagateGo fuel st = .ok st') : Step st st' := by
  induction fuel generalizing st with
  | zero => simp [propagateGo] at h
  | succ fuel ih =>
    rw [propagateGo] at h
    split at h
    · split at h
      · simp only [Except.ok.injEq] at h
        subst h
        exact step_refl st
      · refine step_trans ?_ (ih _ h)
        refine step_trans (step_propagateBinaryGo
          (st.binary.getD (st.trail.getD st.qhead (mkLit 0 false)).idx []) st) ?_
        exact step_of_assignment_eq rfl rfl
    · simp only [Except.ok.injEq] at h
      subst h
      exact step_refl st

theorem step_pushF (st : State) (lit : Lit) (st' : State)
    (h : pushF st lit = .ok st') : Step st st' := by
  unfold pushF at h
  dsimp only at h
  have h0 : Step st (pushLims st lit) := step_of_assignment_eq rfl rfl
  exact step_trans (step_trans h0 (step_assignFn (pushLims st lit) lit))
    (step_propagateGo _ _ _ h)

theorem addBinary_assignment (st : State) (l1 l2 : Lit) :
    (addBinary st l1 l2).assignment = st.assignment := rfl

theorem addBinary_numVars (st : State) (l1 l2 : Lit) :
    (addBinary st l1 l2).numVars = st.numVars := rfl

theorem delBinary_assignment (st : State) (idx : Nat) (st' : State)
    (h : delBinary st idx = .ok st') :
    st'.assignment = st.assignment ∧ st'.numVars = st.numVars := by
  unfold delBinary at h
  dsimp only at h
  split at h
  · simp at h
  · split at h
    · simp at h
    · simp only [Except.ok.injEq] at h
      subst h
      exact ⟨rfl, rfl⟩

theorem delRange_assignment (L : List Nat) (st st' : State)
    (h : delRange st L = .ok st') :
    st'.assignment = st.assignment ∧ st'.numVars = st.numVars := by
  induction L generalizing st with
  | nil =>
    rw [delRange] at h
    simp only [Except.ok.injEq] at h
    subst h
    exact ⟨rfl, rfl⟩
  | cons idx rest ih =>
    rw [delRange] at h
    split at h
    · simp at h
    · rename_i st1 heq
      obtain ⟨h1, h2⟩ := ih st1 h
      obtain ⟨h3, h4⟩ := delBinary_assignment st idx st1 heq
      exact ⟨h1.trans h3, h2.trans h4⟩

theorem addImplied_assignment (L : List Lit) (st st' : State)
    (h : addImplied st L = .ok st') :
    st'.assignment = st.assignment ∧ st'.numVars = st.numVars := by
  induction L generalizing st with
  | nil =>
    rw [addImplied] at h
    simp only [Except.ok.injEq] at h
    subst h
    exact ⟨rfl, rfl⟩
  | cons u rest ih =>
    rw [addImplied] at h
    split at h
    · simp at h
    · obtain ⟨h1, h2⟩ := ih _ h
      exact ⟨h1.trans (addBinary_assignment ..), h2.trans (addBinary_numVars ..)⟩

theorem popF_assignment (st st' : State) (h : popF st = .ok st') :
    st'.assignment = st.assignment ∧ st'.numVars = st.numVars := by
  unfold popF at h
  dsimp only at h
  split at h
  · simp at h
  · split at h
    · simp at h
    · rename_i stA heqA
      split at h
      · simp at h
      · split at h
        · simp at h
        · rename_i stB heqB
          obtain ⟨hA1, hA2⟩ := delRange_assignment _ _ _ heqA
          obtain ⟨hB1, hB2⟩ := addImplied_assignment _ _ _ heqB
          split at h
          · split at h
            · simp at h
            · split at h
              · simp at h
              · simp only [Except.ok.injEq] at h
                subst h
                constructor
                · show stB.assignment = st.assignment
                  exact hB1.trans hA1
                · show stB.numVars = st.numVars
                  exact hB2.trans hA2
          · simp at h

theorem step_popF (st st' : State) (h : popF st = .ok st') : Step st st' := by
  obtain ⟨h1, h2⟩ := popF_assignment st st' h
  exact step_of_assignment_eq h2 h1

theorem step_doubleLookGo (L : List Lit) (st st' : State)
    (h : doubleLookGo L st = .ok st') : Step st st' := by
  induction L generalizing st with
  | nil =>
    rw [doubleLookGo] at h
    simp only [Except.ok.injEq] at h
    subst h
    exact step_refl st
  | cons lit rest ih =>
    rw [doubleLookGo] at h
    split at h
    · simp only [Except.ok.injEq] at h
      subst h
      exact step_refl st
    · split at h
      · exact ih st h
      · split at h
        · simp at h
        · rename_i st1 heq1
          split at h
          · simp at h
          · rename_i st2 heq2
            split at h
            · exact step_trans (step_pushF _ _ _ heq1)
                (step_trans (step_popF _ _ heq2)
                  (step_trans (step_assignFn _ _) (ih _ h)))
            · split at h
              · simp at h
              · rename_i st3 heq3
                split at h
                · simp at h
                · rename_i st4 heq4
                  have base : Step st st4 :=
                    step_trans (step_pushF _ _ _ heq1)
                      (step_trans (step_popF _ _ heq2)
                        (step_trans (step_pushF _ _ _ heq3) (step_popF _ _ heq4)))
                  split at h
                  · exact step_trans base (step_trans (step_assignFn _ _) (ih _ h))
                  · exact step_trans base (ih _ h)

theorem updateDeltaTrigger_assignment (st : State) :
    (updateDeltaTrigger st).assignment = st.assignment := by
  unfold updateDeltaTrigger
  split <;> rfl

theorem updateDeltaTrigger_numVars (st : State) :
    (updateDeltaTrigger st).numVars = st.numVars := by
  unfold updateDeltaTrigger
  split <;> rfl

theorem step_doubleLookF (P : List Lit) (st st' : State)
    (h : doubleLookF P st = .ok st') : Step st st' := by
  unfold doubleLookF at h
  split at h
  · simp at h
  · rename_i st1 heq
    simp only [Except.ok.injEq] at h
    subst h
    exact step_trans (step_doubleLookGo _ _ _ heq)
      (step_of_assignment_eq (updateDeltaTrigger_numVars st1)
        (updateDeltaTrigger_assignment st1))

/-- The `if do_double then double_look` pattern as one step. -/
theorem step_dlIf (P : List Lit) (dd : Bool) (st st' : State)
    (h : (if dd then doubleLookF P st else .ok st) = .ok st') : Step st st' := by
  cases dd
  · simp only [if_neg Bool.false_ne_true, Except.ok.injEq] at h
    subst h
    exact step_refl st
  · simp only [if_pos rfl] at h
    exact step_doubleLookF P st st' h

theorem step_randNext (st : State) (k : Nat) : Step st (randNext st k).2 :=
  step_of_assignment_eq rfl rfl

/-! Error classification: no individual operation inside `choose1` can
produce the `choose`-loop fuel error. -/

theorem propagateGo_err (fuel : Nat) (st : State) (e : Err)
    (h : propagateGo fuel st = .error e) : e = Err.pfuel := by
  induction fuel generalizing st with
  | zero =>
    rw [propagateGo] at h
    simp only [Except.error.injEq] at h
    exact h.symm
  | succ fuel ih =>
    rw [propagateGo] at h
    split at h
    · split at h
      · simp at h
      · exact ih _ h
    · simp at h

theorem pushF_err (st : State) (lit : Lit) (e : Err)
    (h : pushF st lit = .error e) : e = Err.pfuel := by
  unfold pushF at h
  dsimp only at h
  exact propagateGo_err _ _ _ h

theorem delBinary_err (st : State) (idx : Nat) (e : Err)
    (h : delBinary st idx = .error e) : e = Err.crash := by
  unfold delBinary at h
  dsimp only at h
  split at h
  · simp only [Except.error.injEq] at h
    exact h.symm
  · split at h
    · simp only [Except.error.injEq] at h
      exact h.symm
    · simp at h

theorem delRange_err (L : List Nat) (st : State) (e : Err)
    (h : delRange st L = .error e) : e = Err.crash := by
  induction L generalizing st with
  | nil => simp [delRange] at h
  | cons idx rest ih =>
    rw [delRange] at h
    split at h
    · rename_i heq
      simp only [Except.error.injEq] at h
      subst h
      exact delBinary_err _ _ _ heq
    · exact ih _ h

theorem addImplied_err (L : List Lit) (st : State) (e : Err)
    (h : addImplied st L = .error e) : e = Err.crash := by
  induction L generalizing st with
  | nil => simp [addImplied] at h
  | cons u rest ih =>
    rw [addImplied] at h
    split at h
    · simp only [Except.error.injEq] at h
      exact h.symm
    · exact ih _ h

theorem popF_err (st : State) (e : Err) (h : popF st = .error e) :
    e = Err.crash := by
  unfold popF at h
  dsimp only at h
  split at h
  · simp only [Except.error.injEq] at h
    exact h.symm
  · split at h
    · rename_i heq
      simp only [Except.error.injEq] at h
      subst h
      exact delRange_err _ _ _ heq
    · split at h
      · simp only [Except.error.injEq] at h
        exact h.symm
      · split at h
        · rename_i heq
          simp only [Except.error.injEq] at h
          subst h
          exact addImplied_err _ _ _ heq
        · split at h
          · split at h
            · simp only [Except.error.injEq] at h
              exact h.symm
            · split at h
              · simp only [Except.error.injEq] at h
                exact h.symm
              · simp at h
          · simp only [Except.error.injEq] at h
            exact h.symm

theorem diffF_err (st : State) (e : Err) (h : diffF st = .error e) :
    e = Err.crash := by
  unfold diffF at h
  split at h
  · simp only [Except.error.injEq] at h
    exact h.symm
  · simp at h

theorem doDoubleF_err (st : State) (e : Err) (h : doDoubleF st = .error e) :
    e = Err.crash := by
  unfold doDoubleF at h
  split at h
  · simp at h
  · split at h
    · rename_i heq
      simp only [Except.error.injEq] at h
      subst h
      exact diffF_err _ _ heq
    · simp at h

theorem doubleLookGo_err (L : List Lit) (st : State) (e : Err)
    (h : doubleLookGo L st = .error e) : e ≠ Err.fuel := by
  induction L generalizing st with
  | nil => simp [doubleLookGo] at h
  | cons lit rest ih =>
    rw [doubleLookGo] at h
    split at h
    · simp at h
    · split at h
      · exact ih _ h
      · split at h
        · rename_i heq
          simp only [Except.error.injEq] at h
          subst h
          rw [pushF_err _ _ _ heq]
          simp
        · split at h
          · rename_i heq
            simp only [Except.error.injEq] at h
            subst h
            rw [popF_err _ _ heq]
            simp
          · split at h
            · exact ih _ h
            · split at h
              · rename_i heq
                simp only [Except.error.injEq] at h
                subst h
                rw [pushF_err _ _ _ heq]
                simp
              · split at h
                · rename_i heq
                  simp only [Except.error.injEq] at h
                  subst h
                  rw [popF_err _ _ heq]
                  simp
                · split at h
                  · exact ih _ h
                  · exact ih _ h

theorem doubleLookF_err (L : List Lit) (st : State) (e : Err)
    (h : doubleLookF L st = .error e) : e ≠ Err.fuel := by
  unfold doubleLookF at h
  split at h
  · rename_i heq
    simp only [Except.error.injEq] at h
    subst h
    exact doubleLookGo_err _ _ _ heq
  · simp at h

theorem dlIf_err (P : List Lit) (dd : Bool) (st : State) (e : Err)
    (h : (if dd then doubleLookF P st else .ok st) = .error e) : e ≠ Err.fuel := by
  cases dd
  · simp at h
  · simp only [if_pos rfl] at h
    exact doubleLookF_err P st e h

/-! Assigned variables stay assigned; a pushed candidate is assigned. -/

theorem step_value_keep {a b : State} (h : Step a b) (v : Nat)
    (hv : value a (mkLit v false) ≠ LB.lundef) :
    value b (mkLit v false) ≠ LB.lundef := by
  unfold value at hv ⊢
  exact h.2.2 _ hv

theorem idx_mk_false (v : Nat) : (Lit.mk v false).idx = 2 * v := by
  simp [Lit.idx]

theorem idx_mk_true (v : Nat) : (Lit.mk v true).idx = 2 * v + 1 := by
  simp [Lit.idx]

theorem neg_mk_false (v : Nat) : Lit.neg (Lit.mk v false) = Lit.mk v true := rfl

theorem neg_mk_true (v : Nat) : Lit.neg (Lit.mk v true) = Lit.mk v false := rfl

theorem assign_kills (st : State) (l : Lit) (hu : value st l = LB.lundef)
    (hlen : 2 * l.var < st.assignment.length) :
    value (assignFn st l) (mkLit l.var false) ≠ LB.lundef := by
  obtain ⟨v, s⟩ := l
  simp only at hlen
  unfold assignFn
  rw [hu]
  dsimp only
  unfold value mkLit
  cases s
  · rw [neg_mk_false, idx_mk_false, idx_mk_true]
    rw [getD_set_ne _ _ _ (by omega)]
    rw [getD_set_self _ _ _ _ (by omega)]
    simp
  · rw [neg_mk_true, idx_mk_false, idx_mk_true]
    rw [getD_set_self _ _ _ _ (by rw [List.length_set]; omega)]
    simp

theorem pushF_kills (st : State) (lit : Lit) (st' : State)
    (h : pushF st lit = .ok st') (hu : value st lit = LB.lundef)
    (hlen : 2 * lit.var < st.assignment.length) :
    value st' (mkLit lit.var false) ≠ LB.lundef := by
  unfold pushF at h
  dsimp only at h
  have hu1 : value (pushLims st lit) lit = LB.lundef := hu
  have hlen1 : 2 * lit.var < (pushLims st lit).assignment.length := hlen
  have hk := assign_kills (pushLims st lit) lit hu1 hlen1
  exact step_value_keep (step_propagateGo _ _ _ h) lit.var hk

theorem countP_lt_of_pointwise (L : List Nat) (p q : Nat → Bool)
    (hpq : ∀ x ∈ L, q x = true → p x = true) (x0 : Nat) (hx0 : x0 ∈ L)
    (hp : p x0 = true) (hq : q x0 = false) :
    L.countP q < L.countP p := by
  induction L with
  | nil => cases hx0
  | cons a t ih =>
    rw [List.countP_cons, List.countP_cons]
    rcases List.mem_cons.mp hx0 with rfl | hx0t
    · have hle : t.countP q ≤ t.countP p :=
        List.countP_mono_left (fun x hx => hpq x (List.mem_cons_of_mem _ hx))
      simp only [hq, hp, Bool.false_eq_true, if_false, if_true]
      omega
    · have hlt := ih (fun x hx => hpq x (List.mem_cons_of_mem _ hx)) hx0t
      have hqa := hpq a (List.mem_cons_self a t)
      cases hqa' : q a
      · cases hpa : p a <;>
          simp only [hqa', hpa, Bool.false_eq_true, if_false, if_true] <;> omega
      · rw [hqa hqa']
        simp only [hqa', if_true]
        omega

theorem numFree_lt (st st' : State) (h : Step st st') (v0 : Nat)
    (hv0 : v0 < st.numVars) (hfree : value st (mkLit v0 false) = LB.lundef)
    (hkill : value st' (mkLit v0 false) ≠ LB.lundef) :
    numFree st' < numFree st := by
  unfold numFree
  rw [h.1]
  refine countP_lt_of_pointwise (List.range st.numVars) _ _ ?_ v0
    (List.mem_range.mpr hv0) ?_ ?_
  · intro x hx hqx
    simp only [beq_iff_eq] at hqx ⊢
    by_contra hc
    exact step_value_keep h x hc hqx
  · simp only [beq_iff_eq]
    exact hfree
  · simp only [beq_eq_false_iff_ne, ne_eq]
    exact hkill

theorem step_choose1Go (P : List Lit) (rest : List Lit) (h c : Nat)
    (l : Option Lit) (st : State) (b : Bool) (l' : Option Lit) (st' : State)
    (hres : choose1Go P rest h c l st = .ok (b, l', st')) : Step st st' := by
  induction rest generalizing h c l st with
  | nil =>
    rw [choose1Go] at hres
    simp only [Except.ok.injEq, Prod.mk.injEq] at hres
    obtain ⟨-, -, rfl⟩ := hres
    exact step_refl _
  | cons lit rest ih =>
    rw [choose1Go] at hres
    split at hres
    · simp at hres
    · rename_i st1 hpush
      split at hres
      · simp at hres
      · rename_i dd1 hdd1
        split at hres
        · simp at hres
        · rename_i st2 hdl1
          have s01 : Step st st2 :=
            step_trans (step_pushF _ _ _ hpush) (step_dlIf _ _ _ _ hdl1)
          split at hres
          · split at hres
            · simp at hres
            · rename_i st3 hpop
              dsimp only at hres
              split at hres
              · simp at hres
              · rename_i dd2 hdd2
                split at hres
                · simp at hres
                · rename_i st5 hdl2
                  have s05 : Step st st5 :=
                    step_trans s01 (step_trans (step_popF _ _ hpop)
                      (step_trans (step_assignFn _ _) (step_dlIf _ _ _ _ hdl2)))
                  split at hres
                  · simp only [Except.ok.injEq, Prod.mk.injEq] at hres
                    obtain ⟨-, -, rfl⟩ := hres
                    exact s05
                  · exact step_trans s05 (ih _ _ _ _ hres)
          · split at hres
            · simp at hres
            · rename_i diff1 hdiff1
              split at hres
              · simp at hres
              · rename_i st3 hpop1
                split at hres
                · simp at hres
                · rename_i st4 hpush2
                  split at hres
                  · simp at hres
                  · rename_i dd2 hdd2
                    split at hres
                    · simp at hres
                    · rename_i st5 hdl2
                      split at hres
                      · simp at hres
                      · rename_i diff2 hdiff2
                        split at hres
                        · simp at hres
                        · rename_i st6 hpop2
                          have s06 : Step st st6 :=
                            step_trans s01 (step_trans (step_popF _ _ hpop1)
                              (step_trans (step_pushF _ _ _ hpush2)
                                (step_trans (step_dlIf _ _ _ _ hdl2)
                                  (step_popF _ _ hpop2))))
                          dsimp only at hres
                          split at hres
                          · exact step_trans s06
                              (step_trans (step_assignFn _ _) (ih _ _ _ _ hres))
                          · split at hres
                            · exact step_trans s06 (ih _ _ _ _ hres)
                            · split at hres
                              · split at hres
                                · exact step_trans s06
                                    (step_trans (step_randNext _ _) (ih _ _ _ _ hres))
                                · exact step_trans s06
                                    (step_trans (step_randNext _ _) (ih _ _ _ _ hres))
                              · exact step_trans s06 (ih _ _ _ _ hres)

theorem choose1Go_err (P : List Lit) (rest : List Lit) (h c : Nat)
    (l : Option Lit) (st : State) (e : Err)
    (hres : choose1Go P rest h c l st = .error e) : e ≠ Err.fuel := by
  induction rest generalizing h c l st with
  | nil => simp [choose1Go] at hres
  | cons lit rest ih =>
    rw [choose1Go] at hres
    split at hres
    · rename_i e1 hpush
      simp only [Except.error.injEq] at hres
      subst hres
      rw [pushF_err _ _ _ hpush]
      simp
    · rename_i st1 hpush
      split at hres
      · rename_i e1 hdd
        simp only [Except.error.injEq] at hres
        subst hres
        rw [doDoubleF_err _ _ hdd]
        simp
      · rename_i dd1 hdd1
        split at hres
        · rename_i e1 hdl
          simp only [Except.error.injEq] at hres
          subst hres
          exact dlIf_err _ _ _ _ hdl
        · rename_i st2 hdl1
          split at hres
          · split at hres
            · rename_i e1 hpop
              simp only [Except.error.injEq] at hres
              subst hres
              rw [popF_err _ _ hpop]
              simp
            · rename_i st3 hpop
              dsimp only at hres
              split at hres
              · rename_i e1 hdd
                simp only [Except.error.injEq] at hres
                subst hres
                rw [doDoubleF_err _ _ hdd]
                simp
              · rename_i dd2 hdd2
                split at hres
                · rename_i e1 hdl
                  simp only [Except.error.injEq] at hres
                  subst hres
                  exact dlIf_err _ _ _ _ hdl
                · rename_i st5 hdl2
                  split at hres
                  · simp at hres
                  · exact ih _ _ _ _ hres
          · split at hres
            · rename_i e1 hdiff
              simp only [Except.error.injEq] at hres
              subst hres
              rw [diffF_err _ _ hdiff]
              simp
            · rename_i diff1 hdiff1
              split at hres
              · rename_i e1 hpop
                simp only [Except.error.injEq] at hres
                subst hres
                rw [popF_err _ _ hpop]
                simp
              · rename_i st3 hpop1
                split at hres
                · rename_i e1 hp2
                  simp only [Except.error.injEq] at hres
                  subst hres
                  rw [pushF_err _ _ _ hp2]
                  simp
                · rename_i st4 hpush2
                  split at hres
                  · rename_i e1 hdd
                    simp only [Except.error.injEq] at hres
                    subst hres
                    rw [doDoubleF_err _ _ hdd]
                    simp
                  · rename_i dd2 hdd2
                    split at hres
                    · rename_i e1 hdl
                      simp only [Except.error.injEq] at hres
                      subst hres
                      exact dlIf_err _ _ _ _ hdl
                    · rename_i st5 hdl2
                      split at hres
                      · rename_i e1 hdiff
                        simp only [Except.error.injEq] at hres
                        subst hres
                        rw [diffF_err _ _ hdiff]
                        simp
                      · rename_i diff2 hdiff2
                        split at hres
                        · rename_i e1 hpop
                          simp only [Except.error.injEq] at hres
                          subst hres
                          rw [popF_err _ _ hpop]
                          simp
                        · rename_i st6 hpop2
                          dsimp only at hres
                          split at hres
                          · exact ih _ _ _ _ hres
                          · split at hres
                            · exact ih _ _ _ _ hres
                            · split at hres
                              · split at hres
                                · exact ih _ _ _ _ hres
                                · exact ih _ _ _ _ hres
                              · exact ih _ _ _ _ hres

theorem step_choose1F (st : State) (b : Bool) (l' : Option Lit) (st' : State)
    (h : choose1F st = .ok (b, l', st')) : Step st st' := by
  unfold choose1F at h
  dsimp only at h
  split at h
  · simp only [Except.ok.injEq, Prod.mk.injEq] at h
    obtain ⟨-, -, rfl⟩ := h
    exact step_refl _
  · exact step_choose1Go _ _ _ _ _ _ _ _ _ h

theorem choose1F_err (st : State) (e : Err) (h : choose1F st = .error e) :
    e ≠ Err.fuel := by
  unfold choose1F at h
  dsimp only at h
  split at h
  · simp at h
  · exact choose1Go_err _ _ _ _ _ _ _ h

theorem mem_preSelect (st : State) (lit : Lit) (h : lit ∈ preSelect st) :
    value st lit = LB.lundef ∧ lit.var < st.numVars ∧ lit.sign = false := by
  unfold preSelect selectVariables at h
  simp only [List.mem_filterMap, List.mem_range] at h
  obtain ⟨v, hv, heq⟩ := h
  split at heq
  · rename_i hc
    simp only [Option.some.injEq] at heq
    subst heq
    exact ⟨hc, hv, rfl⟩
  · simp at heq

theorem wfA_step {st st' : State} (hwf : wfA st = true) (h : Step st st') :
    wfA st' = true := by
  unfold wfA at hwf ⊢
  simp only [beq_iff_eq] at hwf ⊢
  rw [h.2.1, h.1]
  exact hwf

/-- A `false` return of `choose1` strictly decreases the number of free
variables: the loop ran over a nonempty candidate list and its very first
candidate was pushed — hence assigned — and no later operation (pops
included) ever un-assigns a variable. -/
theorem choose1F_false_lt (st : State) (hwf : wfA st = true)
    (l' : Option Lit) (st' : State)
    (hres : choose1F st = .ok (false, l', st')) : numFree st' < numFree st := by
  unfold choose1F at hres
  dsimp only at hres
  split at hres
  · simp at hres
  · rename_i hPne
    cases hP : preSelect st with
    | nil => exact absurd hP hPne
    | cons lit rest =>
      rw [hP] at hres
      obtain ⟨hundef, hvar, hsign⟩ :=
        mem_preSelect st lit (hP ▸ List.mem_cons_self lit rest)
      have hmk : mkLit lit.var false = lit := by
        obtain ⟨v, s⟩ := lit
        simp only at hsign
        subst hsign
        rfl
      have hundef' : value st (mkLit lit.var false) = LB.lundef := by
        rw [hmk]
        exact hundef
      have hlen : 2 * lit.var < st.assignment.length := by
        unfold wfA at hwf
        simp only [beq_iff_eq] at hwf
        omega
      rw [choose1Go] at hres
      split at hres
      · simp at hres
      · rename_i st1 hpush
        have hk1 : value st1 (mkLit lit.var false) ≠ LB.lundef :=
          pushF_kills st lit st1 hpush hundef hlen
        have s01 : Step st st1 := step_pushF _ _ _ hpush
        split at hres
        · simp at hres
        · rename_i dd1 hdd1
          split at hres
          · simp at hres
          · rename_i st2 hdl1
            have s12 : Step st1 st2 := step_dlIf _ _ _ _ hdl1
            split at hres
            · split at hres
              · simp at hres
              · rename_i st3 hpop
                dsimp only at hres
                split at hres
                · simp at hres
                · rename_i dd2 hdd2
                  split at hres
                  · simp at hres
                  · rename_i st5 hdl2
                    have s15 : Step st1 st5 :=
                      step_trans s12 (step_trans (step_popF _ _ hpop)
                        (step_trans (step_assignFn _ _) (step_dlIf _ _ _ _ hdl2)))
                    split at hres
                    · simp at hres
                    · have sTail : Step st5 st' :=
                        step_choose1Go _ _ _ _ _ _ _ _ _ hres
                      refine numFree_lt st st'
                        (step_trans (step_trans s01 s15) sTail) lit.var hvar hundef' ?_
                      exact step_value_keep sTail lit.var
                        (step_value_keep s15 lit.var hk1)
            · split at hres
              · simp at hres
              · rename_i diff1 hdiff1
                split at hres
                · simp at hres
                · rename_i st3 hpop1
                  split at hres
                  · simp at hres
                  · rename_i st4 hpush2
                    split at hres
                    · simp at hres
                    · rename_i dd2 hdd2
                      split at hres
                      · simp at hres
                      · rename_i st5 hdl2
                        split at hres
                        · simp at hres
                        · rename_i diff2 hdiff2
                          split at hres
                          · simp at hres
                          · rename_i st6 hpop2
                            have s16 : Step st1 st6 :=
                              step_trans s12 (step_trans (step_popF _ _ hpop1)
                                (step_trans (step_pushF _ _ _ hpush2)
                                  (step_trans (step_dlIf _ _ _ _ hdl2)
                                    (step_popF _ _ hpop2))))
                            dsimp only at hres
                            split at hres
                            · have sX : Step st1 (assignFn st6 lit) :=
                                step_trans s16 (step_assignFn _ _)
                              have sTail : Step (assignFn st6 lit) st' :=
                                step_choose1Go _ _ _ _ _ _ _ _ _ hres
                              refine numFree_lt st st'
                                (step_trans (step_trans s01 sX) sTail) lit.var hvar hundef' ?_
                              exact step_value_keep sTail lit.var
                                (step_value_keep sX lit.var hk1)
                            · split at hres
                              · have sTail : Step st6 st' :=
                                  step_choose1Go _ _ _ _ _ _ _ _ _ hres
                                refine numFree_lt st st'
                                  (step_trans (step_trans s01 s16) sTail) lit.var hvar hundef' ?_
                                exact step_value_keep sTail lit.var
                                  (step_value_keep s16 lit.var hk1)
                              · split at hres
                                · split at hres
                                  · have sX : Step st1 (randNext st6 1).2 :=
                                      step_trans s16 (step_randNext _ _)
                                    have sTail := step_choose1Go _ _ _ _ _ _ _ _ _ hres
                                    refine numFree_lt st st'
                                      (step_trans (step_trans s01 sX) sTail) lit.var hvar hundef' ?_
                                    exact step_value_keep sTail lit.var
                                      (step_value_keep sX lit.var hk1)
                                  · have sX : Step st1 (randNext st6 1).2 :=
                                      step_trans s16 (step_randNext _ _)
                                    have sTail := step_choose1Go _ _ _ _ _ _ _ _ _ hres
                                    refine numFree_lt st st'
                                      (step_trans (step_trans s01 sX) sTail) lit.var hvar hundef' ?_
                                    exact step_value_keep sTail lit.var
                                      (step_value_keep sX lit.var hk1)
                                · have sTail : Step st6 st' :=
                                    step_choose1Go _ _ _ _ _ _ _ _ _ hres
                                  refine numFree_lt st st'
                                    (step_trans (step_trans s01 s16) sTail) lit.var hvar hundef' ?_
                                  exact step_value_keep sTail lit.var
                                    (step_value_keep s16 lit.var hk1)

theorem chooseF_no_fuel (fuel : Nat) (st : State) (hwf : wfA st = true)
    (hlt : numFree st < fuel) : chooseF fuel st ≠ .error Err.fuel := by
  induction fuel generalizing st with
  | zero => omega
  | succ fuel ih =>
    rw [chooseF]
    cases hcc : choose1F st with
    | error e =>
      simpa using choose1F_err st e hcc
    | ok res =>
      obtain ⟨b, l2, st1⟩ := res
      cases b
      · have hst : Step st st1 := step_choose1F st false l2 st1 hcc
        have hlt1 : numFree st1 < fuel := by
          have := choose1F_false_lt st hwf l2 st1 hcc
          omega
        simpa using ih st1 (wfA_step hwf hst) hlt1
      · simp

/-- C7. Progress and termination of `choose()`: whenever a `choose1` round
returns `false` (no decision literal produced), the number of free
variables has strictly decreased — its candidates were pushed, hence
assigned, and nothing un-assigns them — and consequently the
`while (!choose1(l))` loop of `choose()` performs at most
`numFree + 1` rounds: with that iteration budget `choose` never exhausts
its fuel (`Err.fuel`; it may still surface a crash or propagation-budget
error of an inner operation, which are not loop iterations). -/
theorem choose_loop_progress (st : State) (hwf : wfA st = true) :
    (∀ l' st', choose1F st = .ok (false, l', st') → numFree st' < numFree st) ∧
    ∀ fuel, numFree st < fuel → chooseF fuel st ≠ .error Err.fuel :=
  ⟨fun l' st' h => choose1F_false_lt st hwf l' st' h,
   fun fuel hlt => chooseF_no_fuel fuel st hwf hlt⟩

/-- C7 witness: on a fresh one-variable engine, fuel `numFree + 1`
suffices for the `choose` loop. -/
theorem choose_loop_progress_witness :
    wfA (freshState 1) = true ∧
    chooseF (numFree (freshState 1) + 1) (freshState 1) ≠ .error Err.fuel :=
  ⟨by decide,
   (choose_loop_progress (freshState 1) (by decide)).2 _ (Nat.lt_succ_self _)⟩

end Lookahead
